import Mathlib

/-!
Verification of the scrobble decision engine of cmus-status-scrobbler
(src/cmus_status_scrobbler.py).

The embedding is a direct shallow translation of the Python source:

* `Status` mirrors the `Status` NamedTuple; `cur_time` (a Python float
  timestamp) is embedded as a rational number, `duration` as an optional
  integer (the value that `int(duration_value)` produces in the source).
* `has_played_enough`, `equal_tracks`, `get_prefix_end_exclusive_idx` and
  `calculate_scrobbles` mirror the functions of the same names; Python
  exceptions (the ZeroDivisionError raised by `total/duration` when the
  duration is 0) are embedded as `Except Unit`.
* Python's stable `sorted(..., key=attrgetter(cur_time))` is embedded as
  `List.mergeSort`, which is also a stable merge sort.
* `run_update_scrobble_state` mirrors the dispatch cycle, with the external
  HTTP collaborator abstracted by a Boolean oracle saying which submitted
  batches raise, and the database abstracted by its list of stored rows.
* `db_connect` mirrors the BEGIN IMMEDIATE retry loop, with sqlite
  abstracted by a Boolean oracle saying which attempts hit SQLITE_BUSY.
-/

/-- The three cmus player states: STATUS_STOPPED, STATUS_PLAYING,
STATUS_PAUSED. -/
inductive PlayerStatus where
  | stopped
  | playing
  | paused
deriving DecidableEq, Repr

/-- The `Status` NamedTuple of the source.  Fields irrelevant to the
decision engine are kept as opaque optional strings. -/
structure Status where
  status : PlayerStatus
  file : String
  artist : Option String
  albumartist : Option String
  album : Option String
  discnumber : Option String
  tracknumber : Option String
  title : Option String
  date : Option String
  duration : Option Int
  musicbrainz_trackid : Option String
  cur_time : ℚ
deriving DecidableEq, Repr

/-- Helper to build a `Status` with only the fields the engine reads. -/
def mkStatus (status : PlayerStatus) (file : String) (duration : Option Int)
    (cur_time : ℚ) : Status :=
  ⟨status, file, none, none, none, none, none, none, none, duration, none,
    cur_time⟩

/-- `has_played_enough` (nested inside `calculate_scrobbles` in the source).
`duration_value` absent returns `False`; a present duration of `0` makes the
Python expression `total/duration` raise ZeroDivisionError, embedded as
`Except.error`. -/
def has_played_enough (perc_thresh secs_thresh : ℚ) (start_ts end_ts : ℚ)
    (duration_value : Option Int) (played_before_pause : ℚ) :
    Except Unit Bool :=
  match duration_value with
  | none => .ok false
  | some duration =>
    if duration = 0 then .error ()
    else
      let total := end_ts - start_ts + played_before_pause
      .ok (decide (total / (duration : ℚ) ≥ perc_thresh) ||
        decide (total ≥ secs_thresh))

/-- `equal_tracks` from the source: same `file`. -/
abbrev equal_tracks (a b : Status) : Prop := a.file = b.file

/-- The scan of `get_prefix_end_exclusive_idx`: walk the reversed (newest
first) sorted list; at the first adjacent pair `(cur, prv)` (with `cur` the
newer event) satisfying the break condition return `len(r_su) - i`, where
the list at that point has `rest.length + 2` elements left; otherwise 0. -/
def get_prefix_end_go : List Status → Nat
  | cur :: prv :: rest =>
    if cur.status = .stopped ∨ ¬ equal_tracks cur prv ∨
        cur.status = prv.status ∨ prv.status = .stopped then
      rest.length + 2
    else
      get_prefix_end_go (prv :: rest)
  | _ => 0

/-- `get_prefix_end_exclusive_idx` from the source. -/
def get_prefix_end_exclusive_idx (sus : List Status) : Nat :=
  get_prefix_end_go sus.reverse

/-- The `for cur, nxt, nxt2 in it.zip_longest(lsus, lsus[1:], lsus[2:])`
loop of `calculate_scrobbles`, with the two fold variables
`played_before_pause` and `played_before_pause_status` passed as explicit
state.  Returns `(scrobbles, leftovers)` accumulated by the loop. -/
def scrobble_loop (perc_thresh secs_thresh : ℚ) :
    List Status → ℚ → Option Status → Except Unit (List Status × List Status)
  | [], _, _ => .ok ([], [])
  | cur :: rest, played_before_pause, played_before_pause_status =>
    if cur.status = .stopped ∨ cur.status = .paused then
      scrobble_loop perc_thresh secs_thresh rest played_before_pause
        played_before_pause_status
    else
      match rest with
      | [] => .ok ([], [cur])
      | nxt :: rest2 =>
        match has_played_enough perc_thresh secs_thresh cur.cur_time
            nxt.cur_time cur.duration
            (match played_before_pause_status with
             | some a => if equal_tracks a cur then played_before_pause else 0
             | none => 0) with
        | .error e => .error e
        | .ok played_enough =>
          if ¬ equal_tracks cur nxt ∨ nxt.status = .stopped ∨
              nxt.status = .playing then
            match scrobble_loop perc_thresh secs_thresh rest 0 none with
            | .error e => .error e
            | .ok (s, l) => .ok ((if played_enough then [cur] else []) ++ s, l)
          else
            match rest2 with
            | [] =>
              match scrobble_loop perc_thresh secs_thresh rest
                  played_before_pause played_before_pause_status with
              | .error e => .error e
              | .ok (s, l) => .ok (s, cur :: nxt :: l)
            | nxt2 :: _ =>
              if equal_tracks cur nxt2 ∧ nxt2.status = .playing then
                scrobble_loop perc_thresh secs_thresh rest
                  (played_before_pause + (nxt.cur_time - cur.cur_time))
                  (some (played_before_pause_status.getD cur))
              else
                match scrobble_loop perc_thresh secs_thresh rest
                    played_before_pause played_before_pause_status with
                | .error e => .error e
                | .ok (s, l) =>
                  .ok ((if played_enough then
                    [played_before_pause_status.getD cur] else []) ++ s, l)

/-- The stable ascending sort by `cur_time` used by `calculate_scrobbles`
(Python's `sorted(status_updates, key=attrgetter(cur_time))`). -/
def by_cur_time (a b : Status) : Bool := decide (a.cur_time ≤ b.cur_time)

/-- `calculate_scrobbles` from the source, with explicit thresholds. -/
def calculate_scrobbles_with (perc_thresh secs_thresh : ℚ)
    (status_updates : List Status) :
    Except Unit (List Status × List Status) :=
  if status_updates.length ≤ 1 then .ok ([], status_updates)
  else
    match scrobble_loop perc_thresh secs_thresh
        ((status_updates.mergeSort by_cur_time).take
          (get_prefix_end_exclusive_idx
            (status_updates.mergeSort by_cur_time))) 0 none with
    | .error e => .error e
    | .ok (scrobbles, leftovers) =>
      .ok (scrobbles, leftovers ++
        (status_updates.mergeSort by_cur_time).drop
          (get_prefix_end_exclusive_idx
            (status_updates.mergeSort by_cur_time)))

/-- `calculate_scrobbles` with its default thresholds
`perc_thresh = 0.5`, `secs_thresh = 4*60`. -/
def calculate_scrobbles (status_updates : List Status) :
    Except Unit (List Status × List Status) :=
  calculate_scrobbles_with (1/2) (4*60) status_updates

/-- The batch submission loop of `run_update_scrobble_state`: submit
consecutive batches of `b+1` scrobbles; on the first batch whose submission
raises (per the oracle `fails`), stop and return that batch together with
everything after it (`failed_scrobbles.extend(scrobbles[i:])` followed by
`break`). -/
def collect_failed_scrobbles (fails : List Status → Bool) (b : Nat) :
    List Status → List Status
  | [] => []
  | x :: xs =>
    if fails ((x :: xs).take (b + 1)) then x :: xs
    else collect_failed_scrobbles fails b ((x :: xs).drop (b + 1))
termination_by l => l.length
decreasing_by simp [List.length_drop]; omega

/-- `run_update_scrobble_state` from the source: append the new update to
the stored ones, run `calculate_scrobbles`, submit the scrobbles in batches
of `scrobble_batch_size`, and persist `failed_scrobbles + leftovers` as the
new database contents (the result).  A batch size of 0 makes Python's
`range(0, n, 0)` raise ValueError, embedded as `Except.error`. -/
def run_update_scrobble_state (fails : List Status → Bool)
    (scrobble_batch_size : Nat) (stored : List Status)
    (new_status_update : Status) : Except Unit (List Status) :=
  match scrobble_batch_size with
  | 0 => .error ()
  | b + 1 =>
    match calculate_scrobbles (stored ++ [new_status_update]) with
    | .error e => .error e
    | .ok (scrobbles, leftovers) =>
      .ok (collect_failed_scrobbles fails b scrobbles ++ leftovers)

/-- The `for _ in range(retry_attempts): try BEGIN IMMEDIATE ... except
sleep` loop of `db_connect`.  `busy i` says whether the i-th attempt hits
SQLITE_BUSY.  Returns the index of the successful attempt together with the
total seconds slept, or an error (the final `raise`) after exhausting the
attempts. -/
def begin_immediate_loop (busy : Nat → Bool) (retry_sleep_secs : Nat) :
    Nat → Nat → Nat → (Except Unit Nat) × Nat
  | 0, _, slept => (.error (), slept)
  | n + 1, i, slept =>
    if busy i then
      begin_immediate_loop busy retry_sleep_secs n (i + 1)
        (slept + retry_sleep_secs)
    else
      (.ok i, slept)

/-- `db_connect` from the source, reduced to its transaction-acquisition
control flow. -/
def db_connect (busy : Nat → Bool) (retry_attempts retry_sleep_secs : Nat) :
    (Except Unit Nat) × Nat :=
  begin_immediate_loop busy retry_sleep_secs retry_attempts 0 0

/-- The adjacent-pair condition under which the backward scan of
`get_prefix_end_exclusive_idx` keeps extending the trailing undecidable
suffix (`cur` is the newer of the two events). -/
def can_continue (prv cur : Status) : Prop :=
  cur.status ≠ .stopped ∧ cur.file = prv.file ∧ cur.status ≠ prv.status ∧
    prv.status ≠ .stopped

instance (a b : Status) : Decidable (can_continue a b) := by
  unfold can_continue; infer_instance

instance {ε α : Type} [DecidableEq ε] [DecidableEq α] :
    DecidableEq (Except ε α) := fun
  | .ok a, .ok b => decidable_of_iff (a = b) (by simp)
  | .error e, .error f => decidable_of_iff (e = f) (by simp)
  | .ok _, .error _ => isFalse (by intro h; cases h)
  | .error _, .ok _ => isFalse (by intro h; cases h)

/-- Shorthand for a Playing status update (witness inputs). -/
def sPlay (f : String) (d : Int) (t : ℚ) : Status :=
  mkStatus .playing f (some d) t

/-- Shorthand for a Paused status update (witness inputs). -/
def sPause (f : String) (d : Int) (t : ℚ) : Status :=
  mkStatus .paused f (some d) t

/-- Shorthand for a Stopped status update (witness inputs). -/
def sStop (f : String) (d : Int) (t : ℚ) : Status :=
  mkStatus .stopped f (some d) t


/-- Unfolding equation for `scrobble_loop` on a nonempty list. -/
lemma scrobble_loop_cons (perc_thresh secs_thresh : ℚ) (cur : Status)
    (rest : List Status) (played_before_pause : ℚ)
    (played_before_pause_status : Option Status) :
    scrobble_loop perc_thresh secs_thresh (cur :: rest) played_before_pause
        played_before_pause_status =
      if cur.status = .stopped ∨ cur.status = .paused then
        scrobble_loop perc_thresh secs_thresh rest played_before_pause
          played_before_pause_status
      else
        match rest with
        | [] => .ok ([], [cur])
        | nxt :: rest2 =>
          match has_played_enough perc_thresh secs_thresh cur.cur_time
              nxt.cur_time cur.duration
              (match played_before_pause_status with
               | some a => if equal_tracks a cur then played_before_pause else 0
               | none => 0) with
          | .error e => .error e
          | .ok played_enough =>
            if ¬ equal_tracks cur nxt ∨ nxt.status = .stopped ∨
                nxt.status = .playing then
              match scrobble_loop perc_thresh secs_thresh rest 0 none with
              | .error e => .error e
              | .ok (s, l) =>
                .ok ((if played_enough then [cur] else []) ++ s, l)
            else
              match rest2 with
              | [] =>
                match scrobble_loop perc_thresh secs_thresh rest
                    played_before_pause played_before_pause_status with
                | .error e => .error e
                | .ok (s, l) => .ok (s, cur :: nxt :: l)
              | nxt2 :: _ =>
                if equal_tracks cur nxt2 ∧ nxt2.status = .playing then
                  scrobble_loop perc_thresh secs_thresh rest
                    (played_before_pause + (nxt.cur_time - cur.cur_time))
                    (some (played_before_pause_status.getD cur))
                else
                  match scrobble_loop perc_thresh secs_thresh rest
                      played_before_pause played_before_pause_status with
                  | .error e => .error e
                  | .ok (s, l) =>
                    .ok ((if played_enough then
                      [played_before_pause_status.getD cur] else []) ++ s, l) :=
  rfl

lemma scrobble_loop_skip (p s : ℚ) (cur : Status) (rest : List Status)
    (pbp : ℚ) (pbps : Option Status)
    (h : cur.status = .stopped ∨ cur.status = .paused) :
    scrobble_loop p s (cur :: rest) pbp pbps =
      scrobble_loop p s rest pbp pbps := by
  rw [scrobble_loop_cons, if_pos h]

lemma scrobble_loop_one (p s : ℚ) (cur : Status) (pbp : ℚ)
    (pbps : Option Status)
    (h : ¬ (cur.status = .stopped ∨ cur.status = .paused)) :
    scrobble_loop p s [cur] pbp pbps = .ok ([], [cur]) := by
  rw [scrobble_loop_cons, if_neg h]

/-- Iota-reduced unfolding equation for a two-element list. -/
lemma scrobble_loop_two (p s : ℚ) (cur nxt : Status) (pbp : ℚ)
    (pbps : Option Status) :
    scrobble_loop p s [cur, nxt] pbp pbps =
      if cur.status = .stopped ∨ cur.status = .paused then
        scrobble_loop p s [nxt] pbp pbps
      else
        match has_played_enough p s cur.cur_time nxt.cur_time cur.duration
            (match pbps with
             | some a => if equal_tracks a cur then pbp else 0
             | none => 0) with
        | .error e => .error e
        | .ok pe =>
          if ¬ equal_tracks cur nxt ∨ nxt.status = .stopped ∨
              nxt.status = .playing then
            match scrobble_loop p s [nxt] 0 none with
            | .error e => .error e
            | .ok (sc, l) => .ok ((if pe then [cur] else []) ++ sc, l)
          else
            match scrobble_loop p s [nxt] pbp pbps with
            | .error e => .error e
            | .ok (sc, l) => .ok (sc, cur :: nxt :: l) :=
  rfl

/-- Iota-reduced unfolding equation for a list of three or more elements. -/
lemma scrobble_loop_three (p s : ℚ) (cur nxt nxt2 : Status)
    (rest3 : List Status) (pbp : ℚ) (pbps : Option Status) :
    scrobble_loop p s (cur :: nxt :: nxt2 :: rest3) pbp pbps =
      if cur.status = .stopped ∨ cur.status = .paused then
        scrobble_loop p s (nxt :: nxt2 :: rest3) pbp pbps
      else
        match has_played_enough p s cur.cur_time nxt.cur_time cur.duration
            (match pbps with
             | some a => if equal_tracks a cur then pbp else 0
             | none => 0) with
        | .error e => .error e
        | .ok pe =>
          if ¬ equal_tracks cur nxt ∨ nxt.status = .stopped ∨
              nxt.status = .playing then
            match scrobble_loop p s (nxt :: nxt2 :: rest3) 0 none with
            | .error e => .error e
            | .ok (sc, l) => .ok ((if pe then [cur] else []) ++ sc, l)
          else if equal_tracks cur nxt2 ∧ nxt2.status = .playing then
            scrobble_loop p s (nxt :: nxt2 :: rest3)
              (pbp + (nxt.cur_time - cur.cur_time)) (some (pbps.getD cur))
          else
            match scrobble_loop p s (nxt :: nxt2 :: rest3) pbp pbps with
            | .error e => .error e
            | .ok (sc, l) =>
              .ok ((if pe then [pbps.getD cur] else []) ++ sc, l) :=
  rfl

lemma has_played_enough_ok (p s st en c : ℚ) {dv : Option Int}
    (h : dv ≠ some 0) :
    ∃ b, has_played_enough p s st en dv c = .ok b := by
  match dv with
  | none => exact ⟨false, rfl⟩
  | some d =>
    have hd : ¬ d = 0 := by simpa using h
    refine ⟨decide ((en - st + c) / (d : ℚ) ≥ p) || decide (en - st + c ≥ s),
      ?_⟩
    show (if d = 0 then Except.error () else
      Except.ok (decide ((en - st + c) / (d : ℚ) ≥ p) ||
        decide (en - st + c ≥ s))) = _
    rw [if_neg hd]

lemma scrobble_loop_ok (perc secs : ℚ) :
    ∀ ls : List Status, ∀ pbp : ℚ, ∀ pbps : Option Status,
      (∀ s ∈ ls, s.duration ≠ some 0) →
      ∃ r, scrobble_loop perc secs ls pbp pbps = .ok r := by
  intro ls
  induction ls with
  | nil => exact fun _ _ _ => ⟨([], []), rfl⟩
  | cons cur rest ih =>
    intro pbp pbps hdur
    have hcur : cur.duration ≠ some 0 := hdur cur (by simp)
    have hrest : ∀ s ∈ rest, s.duration ≠ some 0 :=
      fun s hs => hdur s (by simp [hs])
    by_cases hsk : cur.status = .stopped ∨ cur.status = .paused
    · rw [scrobble_loop_skip _ _ _ _ _ _ hsk]
      exact ih pbp pbps hrest
    · cases rest with
      | nil => exact ⟨_, scrobble_loop_one _ _ _ _ _ hsk⟩
      | cons nxt rest2 =>
        obtain ⟨b, hb⟩ := has_played_enough_ok perc secs cur.cur_time
          nxt.cur_time (match pbps with
            | some a => if equal_tracks a cur then pbp else 0
            | none => 0) hcur
        cases rest2 with
        | nil =>
          rw [scrobble_loop_two, if_neg hsk, hb]
          obtain ⟨⟨s1, l1⟩, h1⟩ := ih pbp pbps hrest
          obtain ⟨⟨s2, l2⟩, h2⟩ := ih 0 none hrest
          rw [h1, h2]
          simp only []
          by_cases hb1 : ¬ equal_tracks cur nxt ∨ nxt.status = .stopped ∨
              nxt.status = .playing
          · rw [if_pos hb1]; exact ⟨_, rfl⟩
          · rw [if_neg hb1]; exact ⟨_, rfl⟩
        | cons nxt2 rest3 =>
          rw [scrobble_loop_three, if_neg hsk, hb]
          simp only []
          by_cases hb1 : ¬ equal_tracks cur nxt ∨ nxt.status = .stopped ∨
              nxt.status = .playing
          · rw [if_pos hb1]
            obtain ⟨⟨s2, l2⟩, h2⟩ := ih 0 none hrest
            rw [h2]; exact ⟨_, rfl⟩
          · rw [if_neg hb1]
            by_cases hf : equal_tracks cur nxt2 ∧ nxt2.status = .playing
            · rw [if_pos hf]; exact ih _ _ hrest
            · rw [if_neg hf]
              obtain ⟨⟨s1, l1⟩, h1⟩ := ih pbp pbps hrest
              rw [h1]; exact ⟨_, rfl⟩

/-- Destructing a successful run of `calculate_scrobbles_with` on an input
of length at least 2 into the underlying loop run. -/
lemma calculate_scrobbles_with_ok {p s : ℚ} {l pl lo : List Status}
    (h2 : ¬ l.length ≤ 1)
    (hres : calculate_scrobbles_with p s l = .ok (pl, lo)) :
    ∃ ll, scrobble_loop p s
        ((l.mergeSort by_cur_time).take
          (get_prefix_end_exclusive_idx (l.mergeSort by_cur_time))) 0 none =
        .ok (pl, ll) ∧
      lo = ll ++ (l.mergeSort by_cur_time).drop
        (get_prefix_end_exclusive_idx (l.mergeSort by_cur_time)) := by
  unfold calculate_scrobbles_with at hres
  rw [if_neg h2] at hres
  rcases hloop : scrobble_loop p s
      ((l.mergeSort by_cur_time).take
        (get_prefix_end_exclusive_idx (l.mergeSort by_cur_time))) 0 none with
    e | ⟨sc, ll⟩
  · rw [hloop] at hres; simp at hres
  · rw [hloop] at hres
    simp only [Except.ok.injEq, Prod.mk.injEq] at hres
    obtain ⟨h3, h4⟩ := hres
    subst h3; subst h4
    exact ⟨ll, rfl, rfl⟩

/-- C6: on inputs of length 0 or 1 `calculate_scrobbles` returns no plays
and the input unchanged as leftovers. -/
theorem calculate_scrobbles_trivial_input (l : List Status)
    (h : l.length ≤ 1) : calculate_scrobbles l = .ok ([], l) := by
  unfold calculate_scrobbles calculate_scrobbles_with
  rw [if_pos h]

/-- Witness for C6: a singleton input is returned unchanged. -/
theorem calculate_scrobbles_trivial_input_witness :
    calculate_scrobbles [sPlay "A" 5 0] = .ok ([], [sPlay "A" 5 0]) :=
  calculate_scrobbles_trivial_input [sPlay "A" 5 0] (by decide)

/-- C4: with the default thresholds, `has_played_enough` holds iff
`(end - start + carried) / duration` is at least one half or
`end - start + carried` is at least 240 seconds; an absent duration fails
closed; accumulating exactly 240 seconds qualifies while 239 does not when
the percent threshold is unmet. -/
theorem has_played_enough_threshold :
    (∀ p s st en c : ℚ, has_played_enough p s st en none c = .ok false) ∧
    (∀ (st en c : ℚ) (d : ℤ), d ≠ 0 →
      (has_played_enough (1/2) (4*60) st en (some d) c = .ok true ↔
        (en - st + c) / (d : ℚ) ≥ 1/2 ∨ en - st + c ≥ 240)) ∧
    has_played_enough (1/2) (4*60) 0 240 (some 1000) 0 = .ok true ∧
    has_played_enough (1/2) (4*60) 0 239 (some 1000) 0 = .ok false := by
  refine ⟨fun _ _ _ _ _ => rfl, fun st en c d hd => ?_,
    by with_unfolding_all rfl, by with_unfolding_all rfl⟩
  unfold has_played_enough
  simp only []
  rw [if_neg hd]
  simp only [Except.ok.injEq, Bool.or_eq_true, decide_eq_true_eq]
  norm_num

/-- Witness for C4: 4 of 5 seconds played is 80 percent, played enough. -/
theorem has_played_enough_threshold_witness :
    has_played_enough (1/2) (4*60) 0 4 (some 5) 0 = .ok true :=
  (has_played_enough_threshold.2.1 0 4 0 5 (by norm_num)).mpr
    (by norm_num)

/-- C10: `calculate_scrobbles` evaluates without error on every input whose
events each have an absent or nonzero integer duration; an event with
duration 0 anchoring a decided segment makes the threshold check raise
(division by zero), so duration 0 does not fail closed. -/
theorem calculate_scrobbles_duration_zero_raises :
    (∀ l : List Status, (∀ s ∈ l, s.duration ≠ some 0) →
      ∃ pl lo, calculate_scrobbles l = .ok (pl, lo)) ∧
    calculate_scrobbles
      [mkStatus .playing "A" (some 0) 0, mkStatus .stopped "A" (some 0) 300] =
      .error () := by
  constructor
  · intro l hl
    unfold calculate_scrobbles calculate_scrobbles_with
    by_cases h1 : l.length ≤ 1
    · rw [if_pos h1]; exact ⟨[], l, rfl⟩
    · rw [if_neg h1]
      have hmem : ∀ s ∈ (l.mergeSort by_cur_time).take
          (get_prefix_end_exclusive_idx (l.mergeSort by_cur_time)),
          s.duration ≠ some 0 := fun s hs =>
        hl s (((l.mergeSort_perm by_cur_time).mem_iff).mp
          ((List.take_sublist _ _).subset hs))
      obtain ⟨⟨sc, lo⟩, h⟩ := scrobble_loop_ok _ _ _ 0 none hmem
      rw [h]
      exact ⟨_, _, rfl⟩
  · with_unfolding_all rfl

/-- Witness for C10: a two-event input with nonzero durations evaluates
without error. -/
theorem calculate_scrobbles_duration_zero_raises_witness :
    ∃ pl lo, calculate_scrobbles [sPlay "A" 5 0, sStop "A" 5 4] =
      .ok (pl, lo) :=
  calculate_scrobbles_duration_zero_raises.1
    [sPlay "A" 5 0, sStop "A" 5 4] (by decide)

lemma begin_immediate_loop_zero (busy : Nat → Bool) (s i slept : Nat) :
    begin_immediate_loop busy s 0 i slept = (.error (), slept) := rfl

lemma begin_immediate_loop_succ (busy : Nat → Bool) (s n i slept : Nat) :
    begin_immediate_loop busy s (n + 1) i slept =
      if busy i then begin_immediate_loop busy s n (i + 1) (slept + s)
      else (.ok i, slept) := rfl

lemma begin_immediate_loop_spec (busy : Nat → Bool) (s : Nat) :
    ∀ n i slept : Nat,
      ((begin_immediate_loop busy s n i slept).1 = .error () ↔
        ∀ j < n, busy (i + j) = true) ∧
      (∀ k, (begin_immediate_loop busy s n i slept).1 = .ok k →
        i ≤ k ∧ k < i + n ∧ busy k = false ∧
          ∀ j, i ≤ j → j < k → busy j = true) ∧
      ((∀ j < n, busy (i + j) = true) →
        (begin_immediate_loop busy s n i slept).2 = slept + n * s) := by
  intro n
  induction n with
  | zero =>
    intro i slept
    refine ⟨by simp [begin_immediate_loop_zero], ?_, ?_⟩
    · intro k hk
      rw [begin_immediate_loop_zero] at hk
      simp at hk
    · intro _
      simp [begin_immediate_loop_zero]
  | succ n ih =>
    intro i slept
    by_cases hb : busy i
    · have heq : begin_immediate_loop busy s (n + 1) i slept =
          begin_immediate_loop busy s n (i + 1) (slept + s) := by
        rw [begin_immediate_loop_succ, if_pos hb]
      obtain ⟨ih1, ih2, ih3⟩ := ih (i + 1) (slept + s)
      refine ⟨?_, ?_, ?_⟩
      · rw [heq, ih1]
        constructor
        · intro h j hj
          match j with
          | 0 => simpa using hb
          | j' + 1 =>
            have := h j' (by omega)
            rwa [show i + 1 + j' = i + (j' + 1) by omega] at this
        · intro h j hj
          have := h (j + 1) (by omega)
          rwa [show i + (j + 1) = i + 1 + j by omega] at this
      · intro k hk
        rw [heq] at hk
        obtain ⟨h1, h2, h3, h4⟩ := ih2 k hk
        refine ⟨by omega, by omega, h3, ?_⟩
        intro j hij hjk
        rcases Nat.eq_or_lt_of_le hij with h | h
        · exact h ▸ hb
        · exact h4 j (by omega) hjk
      · intro h
        rw [heq, ih3 ?_]
        · ring
        · intro j hj
          have := h (j + 1) (by omega)
          rwa [show i + (j + 1) = i + 1 + j by omega] at this
    · have heq : begin_immediate_loop busy s (n + 1) i slept =
          (.ok i, slept) := by
        rw [begin_immediate_loop_succ, if_neg hb]
      refine ⟨?_, ?_, ?_⟩
      · rw [heq]
        constructor
        · intro h; simp at h
        · intro h
          exact absurd (by simpa using h 0 (by omega)) hb
      · intro k hk
        rw [heq] at hk
        simp only [Except.ok.injEq] at hk
        subst hk
        exact ⟨le_refl i, by omega, by simpa using hb, fun j h1 h2 => by omega⟩
      · intro h
        exact absurd (by simpa using h 0 (by omega)) hb

/-- C8: the BEGIN IMMEDIATE acquisition loop of the source retries a
bounded number of attempts: it fails with the final raise exactly when all
`retry_attempts` attempts hit SQLITE_BUSY (so a transient contention that
clears within the attempt budget does not fail the invocation); any
successful acquisition happens at some attempt index below the bound after
only busy attempts; and when all attempts are busy the loop sleeps exactly
`retry_attempts * retry_sleep_secs` seconds in fixed intervals. -/
theorem db_connect_bounded_retry (busy : Nat → Bool) (n s : Nat) :
    ((db_connect busy n s).1 = .error () ↔ ∀ j < n, busy j = true) ∧
    (∀ k, (db_connect busy n s).1 = .ok k →
      k < n ∧ busy k = false ∧ ∀ j < k, busy j = true) ∧
    ((∀ j < n, busy j = true) → (db_connect busy n s).2 = n * s) := by
  obtain ⟨h1, h2, h3⟩ := begin_immediate_loop_spec busy s n 0 0
  refine ⟨by simpa [db_connect] using h1, fun k hk => ?_, fun hbusy => ?_⟩
  · obtain ⟨_, hk2, hk3, hk4⟩ := h2 k (by simpa [db_connect] using hk)
    exact ⟨by omega, hk3, fun j hj => hk4 j (Nat.zero_le j) hj⟩
  · have := h3 (by simpa using hbusy)
    simpa [db_connect] using this

/-- Witness for C8: with contention that never clears, three attempts all
fail, the connection raises, and 3 * 7 seconds were slept; the theorem is
applied at a concrete busy oracle. -/
theorem db_connect_bounded_retry_witness :
    (db_connect (fun i => decide (i < 5)) 3 7).1 = .error () ∧
    (db_connect (fun i => decide (i < 5)) 3 7).2 = 21 :=
  ⟨(db_connect_bounded_retry (fun i => decide (i < 5)) 3 7).1.mpr
      (by decide),
    (db_connect_bounded_retry (fun i => decide (i < 5)) 3 7).2.2 (by decide)⟩

lemma collect_failed_scrobbles_cons (fails : List Status → Bool) (b : Nat)
    (x : Status) (xs : List Status) :
    collect_failed_scrobbles fails b (x :: xs) =
      if fails ((x :: xs).take (b + 1)) then x :: xs
      else collect_failed_scrobbles fails b ((x :: xs).drop (b + 1)) := by
  rw [collect_failed_scrobbles]

lemma collect_failed_scrobbles_first_fail (fails : List Status → Bool)
    (b : Nat) : ∀ (k : Nat) (scr : List Status),
      (∀ j < k, fails ((scr.drop (j * (b + 1))).take (b + 1)) = false) →
      fails ((scr.drop (k * (b + 1))).take (b + 1)) = true →
      k * (b + 1) < scr.length →
      collect_failed_scrobbles fails b scr = scr.drop (k * (b + 1)) := by
  intro k
  induction k with
  | zero =>
    intro scr _ hfail hlen
    simp only [Nat.zero_mul, List.drop_zero] at hfail ⊢
    cases scr with
    | nil => simp at hlen
    | cons x xs => rw [collect_failed_scrobbles_cons, if_pos hfail]
  | succ k ihk =>
    intro scr hok hfail hlen
    have h0 : fails (scr.take (b + 1)) = false := by
      simpa using hok 0 (Nat.succ_pos k)
    cases scr with
    | nil => simp at hlen
    | cons x xs =>
      rw [collect_failed_scrobbles_cons, if_neg (by rw [h0]; simp)]
      have harith : ∀ j : Nat, (b + 1) + j * (b + 1) = (j + 1) * (b + 1) := by
        intro j; ring
      have hres := ihk (((x :: xs)).drop (b + 1)) ?_ ?_ ?_
      · rw [hres, List.drop_drop, harith]
      · intro j hj
        rw [List.drop_drop, harith]
        exact hok (j + 1) (by omega)
      · rw [List.drop_drop, harith]
        exact hfail
      · rw [List.length_drop]
        have := hlen
        have hb1 : (k + 1) * (b + 1) = k * (b + 1) + (b + 1) := by ring
        omega
  
/-- C5: when the k-th batch (of size b+1) is the first whose submission
fails, the dispatch cycle of `run_update_scrobble_state` stops submitting
and persists back exactly the failed batch and every later batch — the
scrobbles from index k*(b+1) on, in original order — concatenated with the
cycle's leftovers; earlier, successfully submitted batches do not reappear
and the leftovers are kept. -/
theorem run_update_batch_partial_failure (fails : List Status → Bool)
    (b k : Nat) (stored : List Status) (new_su : Status)
    (scr lo : List Status)
    (hcalc : calculate_scrobbles (stored ++ [new_su]) = .ok (scr, lo))
    (hok : ∀ j < k, fails ((scr.drop (j * (b + 1))).take (b + 1)) = false)
    (hfail : fails ((scr.drop (k * (b + 1))).take (b + 1)) = true)
    (hlen : k * (b + 1) < scr.length) :
    run_update_scrobble_state fails (b + 1) stored new_su =
      .ok (scr.drop (k * (b + 1)) ++ lo) := by
  unfold run_update_scrobble_state
  simp only []
  rw [hcalc]
  simp only []
  rw [collect_failed_scrobbles_first_fail fails b k scr hok hfail hlen]

/-- Witness for C5: three reportable plays in batches of two, the second
batch failing; the retained set is exactly the second batch plus the
leftovers. -/
theorem run_update_batch_partial_failure_witness :
    run_update_scrobble_state (fun l => decide (sPlay "C" 1 4 ∈ l)) 2
      [sPlay "A" 1 0, sPlay "B" 1 2, sPlay "C" 1 4] (sStop "C" 1 6) =
      .ok [sPlay "C" 1 4] := by
  have h := run_update_batch_partial_failure
    (fun l => decide (sPlay "C" 1 4 ∈ l)) 1 1
    [sPlay "A" 1 0, sPlay "B" 1 2, sPlay "C" 1 4] (sStop "C" 1 6)
    [sPlay "A" 1 0, sPlay "B" 1 2, sPlay "C" 1 4] []
    (by with_unfolding_all rfl)
    (by intro j hj
        have hj0 : j = 0 := by omega
        subst hj0
        with_unfolding_all rfl)
    (by with_unfolding_all rfl) (by decide)
  simpa using h

@[simp] lemma mkStatus_status (st : PlayerStatus) (f : String)
    (d : Option Int) (t : ℚ) : (mkStatus st f d t).status = st := rfl

@[simp] lemma mkStatus_file (st : PlayerStatus) (f : String)
    (d : Option Int) (t : ℚ) : (mkStatus st f d t).file = f := rfl

@[simp] lemma mkStatus_duration (st : PlayerStatus) (f : String)
    (d : Option Int) (t : ℚ) : (mkStatus st f d t).duration = d := rfl

@[simp] lemma mkStatus_cur_time (st : PlayerStatus) (f : String)
    (d : Option Int) (t : ℚ) : (mkStatus st f d t).cur_time = t := rfl

lemma status_playing_of_not_skipped {x : Status}
    (h : ¬ (x.status = .stopped ∨ x.status = .paused)) :
    x.status = .playing := by
  cases hx : x.status <;> simp [hx] at h ⊢

lemma status_paused_of_not_run_end {cur nxt : Status}
    (h : ¬ (¬ equal_tracks cur nxt ∨ nxt.status = .stopped ∨
      nxt.status = .playing)) :
    cur.file = nxt.file ∧ nxt.status = .paused := by
  push_neg at h
  obtain ⟨h1, h2, h3⟩ := h
  refine ⟨h1, ?_⟩
  cases hx : nxt.status <;> simp [hx] at h2 h3 ⊢

lemma get_prefix_end_go_nil : get_prefix_end_go [] = 0 := rfl

lemma get_prefix_end_go_one (x : Status) : get_prefix_end_go [x] = 0 := rfl

lemma get_prefix_end_go_cons (cur prv : Status) (rest : List Status) :
    get_prefix_end_go (cur :: prv :: rest) =
      if cur.status = .stopped ∨ ¬ equal_tracks cur prv ∨
          cur.status = prv.status ∨ prv.status = .stopped then
        rest.length + 2
      else get_prefix_end_go (prv :: rest) := rfl

lemma break_iff_not_can_continue (cur prv : Status) :
    (cur.status = .stopped ∨ ¬ equal_tracks cur prv ∨
      cur.status = prv.status ∨ prv.status = .stopped) ↔
      ¬ can_continue prv cur := by
  unfold can_continue equal_tracks
  tauto

lemma get_prefix_end_go_le (r : List Status) :
    get_prefix_end_go r ≤ r.length := by
  induction r with
  | nil => simp [get_prefix_end_go_nil]
  | cons cur rest ih =>
    cases rest with
    | nil => simp [get_prefix_end_go_one]
    | cons prv rest2 =>
      rw [get_prefix_end_go_cons]
      split
      · simp
      · refine le_trans ih ?_
        simp

lemma get_prefix_end_go_chain (r : List Status) :
    List.Chain' (fun cur prv => can_continue prv cur)
      (r.take (r.length - get_prefix_end_go r + 1)) := by
  induction r with
  | nil => simp
  | cons cur rest ih =>
    cases rest with
    | nil => simp [get_prefix_end_go_one]
    | cons prv rest2 =>
      rw [get_prefix_end_go_cons]
      by_cases hbr : cur.status = .stopped ∨ ¬ equal_tracks cur prv ∨
          cur.status = prv.status ∨ prv.status = .stopped
      · rw [if_pos hbr]
        have h1 : (cur :: prv :: rest2).length - (rest2.length + 2) + 1 = 1 := by
          simp
        rw [h1]
        simp
      · rw [if_neg hbr]
        have hle := get_prefix_end_go_le (prv :: rest2)
        have harith : (cur :: prv :: rest2).length -
            get_prefix_end_go (prv :: rest2) + 1 =
            ((prv :: rest2).length - get_prefix_end_go (prv :: rest2) + 1) +
              1 := by
          simp only [List.length_cons] at hle ⊢
          omega
        rw [harith, List.take_succ_cons, List.chain'_cons']
        constructor
        · intro y hy
          have hq : ∃ q, (prv :: rest2).length -
              get_prefix_end_go (prv :: rest2) + 1 = q + 1 :=
            ⟨_, rfl⟩
          obtain ⟨q, hq⟩ := hq
          rw [hq, List.take_succ_cons] at hy
          simp only [List.head?_cons, Option.mem_def, Option.some.injEq] at hy
          subst hy
          by_contra hcc
          exact hbr ((break_iff_not_can_continue cur prv).mpr hcc)
        · exact ih

lemma get_prefix_end_go_break (r : List Status)
    (h : get_prefix_end_go r ≠ 0) :
    ∃ cur prv rest', r.drop (r.length - get_prefix_end_go r) =
      cur :: prv :: rest' ∧ ¬ can_continue prv cur := by
  induction r with
  | nil => simp [get_prefix_end_go_nil] at h
  | cons cur0 rest ih =>
    cases rest with
    | nil => simp [get_prefix_end_go_one] at h
    | cons prv rest2 =>
      rw [get_prefix_end_go_cons] at h ⊢
      by_cases hbr : cur0.status = .stopped ∨ ¬ equal_tracks cur0 prv ∨
          cur0.status = prv.status ∨ prv.status = .stopped
      · rw [if_pos hbr]
        refine ⟨cur0, prv, rest2, ?_,
          (break_iff_not_can_continue cur0 prv).mp hbr⟩
        simp
      · rw [if_neg hbr] at h ⊢
        obtain ⟨c, p, r', hdrop, hcc⟩ := ih h
        refine ⟨c, p, r', ?_, hcc⟩
        have hle := get_prefix_end_go_le (prv :: rest2)
        have harith : (cur0 :: prv :: rest2).length -
            get_prefix_end_go (prv :: rest2) =
            ((prv :: rest2).length - get_prefix_end_go (prv :: rest2)) + 1 := by
          simp only [List.length_cons] at hle ⊢
          omega
        rw [harith, List.drop_succ_cons]
        exact hdrop

lemma get_prefix_end_go_eq_zero_iff (r : List Status) :
    get_prefix_end_go r = 0 ↔
      List.Chain' (fun cur prv => can_continue prv cur) r := by
  induction r with
  | nil => simp [get_prefix_end_go_nil]
  | cons cur rest ih =>
    cases rest with
    | nil => simp [get_prefix_end_go_one]
    | cons prv rest2 =>
      rw [get_prefix_end_go_cons, List.chain'_cons]
      by_cases hbr : cur.status = .stopped ∨ ¬ equal_tracks cur prv ∨
          cur.status = prv.status ∨ prv.status = .stopped
      · rw [if_pos hbr]
        constructor
        · intro habs; omega
        · rintro ⟨hcc, _⟩
          exact absurd hcc ((break_iff_not_can_continue cur prv).mp hbr)
      · rw [if_neg hbr]
        have hcc : can_continue prv cur := by
          by_contra hcc
          exact hbr ((break_iff_not_can_continue cur prv).mpr hcc)
        rw [ih]
        simp [hcc]

lemma get_prefix_end_go_zero_or_ge_two (r : List Status) :
    get_prefix_end_go r = 0 ∨ 2 ≤ get_prefix_end_go r := by
  induction r with
  | nil => simp [get_prefix_end_go_nil]
  | cons cur rest ih =>
    cases rest with
    | nil => simp [get_prefix_end_go_one]
    | cons prv rest2 =>
      rw [get_prefix_end_go_cons]
      split
      · right; omega
      · exact ih

lemma prefix_idx_le (s : List Status) :
    get_prefix_end_exclusive_idx s ≤ s.length := by
  have := get_prefix_end_go_le s.reverse
  rwa [List.length_reverse] at this

lemma prefix_idx_chain (s : List Status) :
    List.Chain' can_continue
      (s.drop (get_prefix_end_exclusive_idx s - 1)) := by
  have hk := prefix_idx_le s
  have h1 := get_prefix_end_go_chain s.reverse
  have hdef : get_prefix_end_go s.reverse =
      get_prefix_end_exclusive_idx s := rfl
  rw [List.length_reverse, List.take_reverse, List.chain'_reverse, hdef]
    at h1
  have harith : s.length -
      (s.length - get_prefix_end_exclusive_idx s + 1) =
      get_prefix_end_exclusive_idx s - 1 := by omega
  rw [harith] at h1
  exact h1

lemma prefix_idx_break (s : List Status)
    (h : get_prefix_end_exclusive_idx s ≠ 0) :
    2 ≤ get_prefix_end_exclusive_idx s ∧
    ∃ pre prv cur,
      s.take (get_prefix_end_exclusive_idx s) = pre ++ [prv, cur] ∧
      ¬ can_continue prv cur := by
  have hk := prefix_idx_le s
  obtain ⟨c, p, r', hdrop, hcc⟩ := get_prefix_end_go_break s.reverse
    (by simpa [get_prefix_end_exclusive_idx] using h)
  have hdef : get_prefix_end_go s.reverse =
      get_prefix_end_exclusive_idx s := rfl
  rw [List.length_reverse, List.drop_reverse, hdef] at hdrop
  have harith : s.length - (s.length - get_prefix_end_exclusive_idx s) =
      get_prefix_end_exclusive_idx s := by omega
  rw [harith] at hdrop
  constructor
  · rcases get_prefix_end_go_zero_or_ge_two s.reverse with h0 | h2
    · exact absurd h0 (by simpa [get_prefix_end_exclusive_idx] using h)
    · simpa [get_prefix_end_exclusive_idx] using h2
  · refine ⟨r'.reverse, p, c, ?_, hcc⟩
    have hrev := congrArg List.reverse hdrop
    rw [List.reverse_reverse] at hrev
    rw [hrev]
    simp

lemma prefix_idx_zero_iff (s : List Status) :
    get_prefix_end_exclusive_idx s = 0 ↔ List.Chain' can_continue s := by
  unfold get_prefix_end_exclusive_idx
  rw [get_prefix_end_go_eq_zero_iff, List.chain'_reverse]
  exact Iff.rfl

lemma scrobble_loop_nil (p s : ℚ) (pbp : ℚ) (pbps : Option Status) :
    scrobble_loop p s [] pbp pbps = .ok ([], []) := rfl

lemma scrobble_loop_structure (p s : ℚ) :
    ∀ (ls : List Status) (pbp : ℚ) (pbps : Option Status)
      (sc l : List Status),
      scrobble_loop p s ls pbp pbps = .ok (sc, l) →
      (∀ a, pbps = some a → a.status = .playing) →
      ((∀ x ∈ sc, x.status = .playing ∧
          (x ∈ ls ∨ ∃ a, pbps = some a ∧ x = a)) ∧
        (∀ x ∈ l, x ∈ ls) ∧
        (l = [] ∨
          (∃ pre x, ls = pre ++ [x] ∧ l = [x] ∧ x.status = .playing) ∨
          (∃ pre x y, ls = pre ++ [x, y] ∧ l = [x, y] ∧
            x.status = .playing ∧ y.status = .paused ∧
            x.file = y.file))) := by
  intro ls
  induction ls with
  | nil =>
    intro pbp pbps sc l hres _
    rw [scrobble_loop_nil] at hres
    simp only [Except.ok.injEq, Prod.mk.injEq] at hres
    obtain ⟨h1, h2⟩ := hres
    subst h1; subst h2
    exact ⟨by simp, by simp, Or.inl rfl⟩
  | cons cur rest ih =>
    intro pbp pbps sc l hres hpb
    by_cases hsk : cur.status = .stopped ∨ cur.status = .paused
    · rw [scrobble_loop_skip _ _ _ _ _ _ hsk] at hres
      obtain ⟨A, B, C⟩ := ih pbp pbps sc l hres hpb
      refine ⟨?_, ?_, ?_⟩
      · intro x hx
        obtain ⟨h1, h2⟩ := A x hx
        refine ⟨h1, ?_⟩
        rcases h2 with h | h
        · exact Or.inl (List.mem_cons_of_mem _ h)
        · exact Or.inr h
      · intro x hx
        exact List.mem_cons_of_mem _ (B x hx)
      · rcases C with h | ⟨pre, x, hls, hl, hx⟩ |
          ⟨pre, x, y, hls, hl, hx, hy, hf⟩
        · exact Or.inl h
        · exact Or.inr (Or.inl ⟨cur :: pre, x, by rw [hls]; rfl, hl, hx⟩)
        · exact Or.inr (Or.inr ⟨cur :: pre, x, y, by rw [hls]; rfl, hl,
            hx, hy, hf⟩)
    · have hplay := status_playing_of_not_skipped hsk
      cases rest with
      | nil =>
        rw [scrobble_loop_one _ _ _ _ _ hsk] at hres
        simp only [Except.ok.injEq, Prod.mk.injEq] at hres
        obtain ⟨h1, h2⟩ := hres
        subst h1; subst h2
        exact ⟨by simp, by simp, Or.inr (Or.inl ⟨[], cur, rfl, rfl, hplay⟩)⟩
      | cons nxt rest2 =>
        cases rest2 with
        | nil =>
          rw [scrobble_loop_two, if_neg hsk] at hres
          generalize hcarg : (match pbps with
            | some a => if equal_tracks a cur then pbp else 0
            | none => (0 : ℚ)) = carg at hres
          rcases hpe : has_played_enough p s cur.cur_time nxt.cur_time
              cur.duration carg with e | pe
          · rw [hpe] at hres; simp at hres
          · rw [hpe] at hres
            simp only [] at hres
            by_cases hb1 : ¬ equal_tracks cur nxt ∨ nxt.status = .stopped ∨
                nxt.status = .playing
            · rw [if_pos hb1] at hres
              rcases hrec : scrobble_loop p s [nxt] 0 none with e | scl'
              · rw [hrec] at hres; simp at hres
              · obtain ⟨sc', l'⟩ := scl'
                rw [hrec] at hres
                simp only [] at hres
                simp only [Except.ok.injEq, Prod.mk.injEq] at hres
                obtain ⟨h1, h2⟩ := hres
                subst h1; subst h2
                obtain ⟨A, B, C⟩ := ih 0 none sc' l' hrec (by simp)
                refine ⟨?_, ?_, ?_⟩
                · intro x hx
                  rcases List.mem_append.mp hx with hx1 | hx2
                  · cases pe with
                    | false => simp at hx1
                    | true =>
                      simp at hx1
                      subst hx1
                      exact ⟨hplay, Or.inl (by simp)⟩
                  · obtain ⟨h1x, h2x⟩ := A x hx2
                    refine ⟨h1x, ?_⟩
                    rcases h2x with hm | ⟨a, ha, _⟩
                    · exact Or.inl (List.mem_cons_of_mem _ hm)
                    · cases ha
                · intro x hx
                  exact List.mem_cons_of_mem _ (B x hx)
                · rcases C with h | ⟨pre, x, hls, hl, hx⟩ |
                    ⟨pre, x, y, hls, hl, hx, hy, hf⟩
                  · exact Or.inl h
                  · exact Or.inr (Or.inl ⟨cur :: pre, x, by rw [hls]; rfl,
                      hl, hx⟩)
                  · exact Or.inr (Or.inr ⟨cur :: pre, x, y,
                      by rw [hls]; rfl, hl, hx, hy, hf⟩)
            · rw [if_neg hb1] at hres
              obtain ⟨hfeq, hnxtp⟩ := status_paused_of_not_run_end hb1
              have hnl : scrobble_loop p s [nxt] pbp pbps = .ok ([], []) := by
                rw [scrobble_loop_skip _ _ _ _ _ _ (Or.inr hnxtp)]
                rfl
              rw [hnl] at hres
              simp only [] at hres
              simp only [Except.ok.injEq, Prod.mk.injEq] at hres
              obtain ⟨h1, h2⟩ := hres
              subst h1; subst h2
              exact ⟨by simp, fun x hx => hx,
                Or.inr (Or.inr ⟨[], cur, nxt, rfl, rfl, hplay, hnxtp, hfeq⟩)⟩
        | cons nxt2 rest3 =>
          rw [scrobble_loop_three, if_neg hsk] at hres
          generalize hcarg : (match pbps with
            | some a => if equal_tracks a cur then pbp else 0
            | none => (0 : ℚ)) = carg at hres
          rcases hpe : has_played_enough p s cur.cur_time nxt.cur_time
              cur.duration carg with e | pe
          · rw [hpe] at hres; simp at hres
          · rw [hpe] at hres
            simp only [] at hres
            by_cases hb1 : ¬ equal_tracks cur nxt ∨ nxt.status = .stopped ∨
                nxt.status = .playing
            · rw [if_pos hb1] at hres
              rcases hrec : scrobble_loop p s (nxt :: nxt2 :: rest3) 0 none
                with e | scl'
              · rw [hrec] at hres; simp at hres
              · obtain ⟨sc', l'⟩ := scl'
                rw [hrec] at hres
                simp only [] at hres
                simp only [Except.ok.injEq, Prod.mk.injEq] at hres
                obtain ⟨h1, h2⟩ := hres
                subst h1; subst h2
                obtain ⟨A, B, C⟩ := ih 0 none sc' l' hrec (by simp)
                refine ⟨?_, ?_, ?_⟩
                · intro x hx
                  rcases List.mem_append.mp hx with hx1 | hx2
                  · cases pe with
                    | false => simp at hx1
                    | true =>
                      simp at hx1
                      subst hx1
                      exact ⟨hplay, Or.inl (by simp)⟩
                  · obtain ⟨h1x, h2x⟩ := A x hx2
                    refine ⟨h1x, ?_⟩
                    rcases h2x with hm | ⟨a, ha, _⟩
                    · exact Or.inl (List.mem_cons_of_mem _ hm)
                    · cases ha
                · intro x hx
                  exact List.mem_cons_of_mem _ (B x hx)
                · rcases C with h | ⟨pre, x, hls, hl, hx⟩ |
                    ⟨pre, x, y, hls, hl, hx, hy, hf⟩
                  · exact Or.inl h
                  · exact Or.inr (Or.inl ⟨cur :: pre, x, by rw [hls]; rfl,
                      hl, hx⟩)
                  · exact Or.inr (Or.inr ⟨cur :: pre, x, y,
                      by rw [hls]; rfl, hl, hx, hy, hf⟩)
            · rw [if_neg hb1] at hres
              by_cases hfold : equal_tracks cur nxt2 ∧ nxt2.status = .playing
              · rw [if_pos hfold] at hres
                have hpb' : ∀ a, some (pbps.getD cur) = some a →
                    a.status = PlayerStatus.playing := by
                  intro a ha
                  simp only [Option.some.injEq] at ha
                  subst ha
                  cases hps : pbps with
                  | none => simpa using hplay
                  | some a0 => simpa using hpb a0 hps
                obtain ⟨A, B, C⟩ := ih (pbp + (nxt.cur_time - cur.cur_time))
                  (some (pbps.getD cur)) sc l hres hpb'
                refine ⟨?_, ?_, ?_⟩
                · intro x hx
                  obtain ⟨h1x, h2x⟩ := A x hx
                  refine ⟨h1x, ?_⟩
                  rcases h2x with hm | ⟨a, ha, hxa⟩
                  · exact Or.inl (List.mem_cons_of_mem _ hm)
                  · simp only [Option.some.injEq] at ha
                    subst ha
                    cases hps : pbps with
                    | none =>
                      rw [hps] at hxa
                      simp only [Option.getD_none] at hxa
                      exact Or.inl (by simp [hxa])
                    | some a0 =>
                      rw [hps] at hxa
                      simp only [Option.getD_some] at hxa
                      exact Or.inr ⟨a0, rfl, hxa⟩
                · intro x hx
                  exact List.mem_cons_of_mem _ (B x hx)
                · rcases C with h | ⟨pre, x, hls, hl, hx⟩ |
                    ⟨pre, x, y, hls, hl, hx, hy, hf⟩
                  · exact Or.inl h
                  · exact Or.inr (Or.inl ⟨cur :: pre, x, by rw [hls]; rfl,
                      hl, hx⟩)
                  · exact Or.inr (Or.inr ⟨cur :: pre, x, y,
                      by rw [hls]; rfl, hl, hx, hy, hf⟩)
              · rw [if_neg hfold] at hres
                rcases hrec : scrobble_loop p s (nxt :: nxt2 :: rest3) pbp
                    pbps with e | scl'
                · rw [hrec] at hres; simp at hres
                · obtain ⟨sc', l'⟩ := scl'
                  rw [hrec] at hres
                  simp only [] at hres
                  simp only [Except.ok.injEq, Prod.mk.injEq] at hres
                  obtain ⟨h1, h2⟩ := hres
                  subst h1; subst h2
                  obtain ⟨A, B, C⟩ := ih pbp pbps sc' l' hrec hpb
                  refine ⟨?_, ?_, ?_⟩
                  · intro x hx
                    rcases List.mem_append.mp hx with hx1 | hx2
                    · cases pe with
                      | false => simp at hx1
                      | true =>
                        simp at hx1
                        subst hx1
                        cases hps : pbps with
                        | none =>
                          simp only [Option.getD_none]
                          exact ⟨hplay, Or.inl (by simp)⟩
                        | some a0 =>
                          simp only [Option.getD_some]
                          exact ⟨hpb a0 hps, Or.inr ⟨a0, rfl, by simp⟩⟩
                    · obtain ⟨h1x, h2x⟩ := A x hx2
                      refine ⟨h1x, ?_⟩
                      rcases h2x with hm | ⟨a, ha, hxa⟩
                      · exact Or.inl (List.mem_cons_of_mem _ hm)
                      · exact Or.inr ⟨a, ha, hxa⟩
                  · intro x hx
                    exact List.mem_cons_of_mem _ (B x hx)
                  · rcases C with h | ⟨pre, x, hls, hl, hx⟩ |
                      ⟨pre, x, y, hls, hl, hx, hy, hf⟩
                    · exact Or.inl h
                    · exact Or.inr (Or.inl ⟨cur :: pre, x, by rw [hls]; rfl,
                        hl, hx⟩)
                    · exact Or.inr (Or.inr ⟨cur :: pre, x, y,
                        by rw [hls]; rfl, hl, hx, hy, hf⟩)

lemma calculate_scrobbles_short (l : List Status) (h : l.length ≤ 1) :
    calculate_scrobbles l = .ok ([], l) := by
  unfold calculate_scrobbles calculate_scrobbles_with
  rw [if_pos h]

lemma mem_of_mem_take_sorted {x : Status} {l : List Status} {k : Nat}
    (h : x ∈ (l.mergeSort by_cur_time).take k) : x ∈ l :=
  (l.mergeSort_perm by_cur_time).mem_iff.mp ((List.take_sublist _ _).subset h)

lemma mem_of_mem_drop_sorted {x : Status} {l : List Status} {k : Nat}
    (h : x ∈ (l.mergeSort by_cur_time).drop k) : x ∈ l :=
  (l.mergeSort_perm by_cur_time).mem_iff.mp ((List.drop_sublist _ _).subset h)

/-- C9: every event emitted into the plays output of `calculate_scrobbles`
has status Playing (Stopped and Paused events are never emitted), and every
emitted event, the carry-anchor included, is an element of the input. -/
theorem calculate_scrobbles_plays_playing (l pl lo : List Status)
    (hres : calculate_scrobbles l = .ok (pl, lo)) :
    ∀ x ∈ pl, x.status = .playing ∧ x ∈ l := by
  by_cases h1 : l.length ≤ 1
  · rw [calculate_scrobbles_short l h1] at hres
    simp only [Except.ok.injEq, Prod.mk.injEq] at hres
    obtain ⟨h2, _⟩ := hres
    subst h2
    intro x hx
    simp at hx
  · obtain ⟨ll, hloop, hlo⟩ := calculate_scrobbles_with_ok h1 hres
    obtain ⟨A, _, _⟩ := scrobble_loop_structure _ _ _ _ _ _ _ hloop (by simp)
    intro x hx
    obtain ⟨hp, hm⟩ := A x hx
    refine ⟨hp, ?_⟩
    rcases hm with hm | ⟨a, ha, _⟩
    · exact mem_of_mem_take_sorted hm
    · cases ha

/-- Witness for C9: on a Playing/Stopped input the emitted play is the
Playing event and belongs to the input. -/
theorem calculate_scrobbles_plays_playing_witness :
    (sPlay "A" 5 0).status = .playing ∧
      sPlay "A" 5 0 ∈ [sPlay "A" 5 0, sStop "A" 5 4] :=
  calculate_scrobbles_plays_playing [sPlay "A" 5 0, sStop "A" 5 4]
    [sPlay "A" 5 0] [] (by with_unfolding_all rfl) (sPlay "A" 5 0) (by simp)

/-- Counterexample to C1 as stated: on the input Playing(A), Playing(B) the
first event plays for too short a time, so it is dropped from both outputs:
the result is no plays and only Playing(B) as leftover, and the length
equation fails with no carry-merge involved. -/
theorem calculate_scrobbles_no_loss_cex :
    calculate_scrobbles [sPlay "A" 300 0, sPlay "B" 300 1] =
      .ok ([], [sPlay "B" 300 1]) ∧
    sPlay "A" 300 0 ∉ ([] : List Status) ∧
    sPlay "A" 300 0 ∉ [sPlay "B" 300 1] ∧
    ([] : List Status).length + [sPlay "B" 300 1].length ≠
      [sPlay "A" 300 0, sPlay "B" 300 1].length := by
  refine ⟨by with_unfolding_all rfl, by simp, ?_, by simp⟩
  simp only [List.mem_singleton, sPlay, mkStatus]
  intro h
  have := congrArg Status.file h
  simp at this

/-- C1 corrected: plays and leftovers are both drawn from the input, and
the whole trailing undecidable suffix of the sorted input is kept as a
suffix of the leftovers; but an event of the decidable prefix may be
resolved as non-reportable and dropped from both outputs. -/
theorem calculate_scrobbles_no_loss_amended (l pl lo : List Status)
    (hres : calculate_scrobbles l = .ok (pl, lo)) :
    (∀ x ∈ pl, x ∈ l) ∧ (∀ x ∈ lo, x ∈ l) ∧
    ((l.mergeSort by_cur_time).drop
      (get_prefix_end_exclusive_idx (l.mergeSort by_cur_time))).IsSuffix
      lo := by
  by_cases h1 : l.length ≤ 1
  · rw [calculate_scrobbles_short l h1] at hres
    simp only [Except.ok.injEq, Prod.mk.injEq] at hres
    obtain ⟨h2, h3⟩ := hres
    subst h2; subst h3
    refine ⟨by simp, fun x hx => hx, ?_⟩
    rcases l with _ | ⟨x, _ | ⟨y, rest⟩⟩
    · simp
    · have hms : [x].mergeSort by_cur_time = [x] := by
        with_unfolding_all rfl
      rw [hms]
      have hk : get_prefix_end_exclusive_idx [x] = 0 := rfl
      rw [hk]
      simp
    · exfalso
      simp only [List.length_cons] at h1
      omega
  · obtain ⟨ll, hloop, hlo⟩ := calculate_scrobbles_with_ok h1 hres
    obtain ⟨A, B, _⟩ := scrobble_loop_structure _ _ _ _ _ _ _ hloop (by simp)
    refine ⟨?_, ?_, ?_⟩
    · intro x hx
      obtain ⟨_, hm⟩ := A x hx
      rcases hm with hm | ⟨a, ha, _⟩
      · exact mem_of_mem_take_sorted hm
      · cases ha
    · intro x hx
      rw [hlo] at hx
      rcases List.mem_append.mp hx with hx | hx
      · exact mem_of_mem_take_sorted (B x hx)
      · exact mem_of_mem_drop_sorted hx
    · rw [hlo]
      exact List.suffix_append ll _

/-- Witness for C1: on the counterexample input both outputs are drawn
from the input and the (empty) trailing suffix is a suffix of the
leftovers. -/
theorem calculate_scrobbles_no_loss_amended_witness :
    (∀ x ∈ ([] : List Status), x ∈ [sPlay "A" 300 0, sPlay "B" 300 1]) ∧
    (∀ x ∈ [sPlay "B" 300 1], x ∈ [sPlay "A" 300 0, sPlay "B" 300 1]) ∧
    (([sPlay "A" 300 0, sPlay "B" 300 1].mergeSort by_cur_time).drop
      (get_prefix_end_exclusive_idx
        ([sPlay "A" 300 0, sPlay "B" 300 1].mergeSort
          by_cur_time))).IsSuffix [sPlay "B" 300 1] :=
  calculate_scrobbles_no_loss_amended [sPlay "A" 300 0, sPlay "B" 300 1]
    [] [sPlay "B" 300 1] (by with_unfolding_all rfl)

/-- C3: the trailing undecidable suffix.  The scan keeps extending the
suffix while each adjacent older pair can continue (newer not Stopped, same
file, different status, older not Stopped): the part of the sorted input
from one position before the boundary onward is such a chain, and at a
nonzero boundary the breaking pair sits at positions boundary-2 and
boundary-1; everything from the boundary to the newest event lands in the
leftovers and never in plays (plays are drawn from the decidable prefix),
and when the chain reaches the first event the whole sorted sequence is
returned as leftovers with plays empty. -/
theorem calculate_scrobbles_trailing_suffix (l pl lo : List Status)
    (hres : calculate_scrobbles l = .ok (pl, lo)) :
    List.Chain' can_continue ((l.mergeSort by_cur_time).drop
      (get_prefix_end_exclusive_idx (l.mergeSort by_cur_time) - 1)) ∧
    (get_prefix_end_exclusive_idx (l.mergeSort by_cur_time) ≠ 0 →
      2 ≤ get_prefix_end_exclusive_idx (l.mergeSort by_cur_time) ∧
      ∃ pre prv cur, (l.mergeSort by_cur_time).take
          (get_prefix_end_exclusive_idx (l.mergeSort by_cur_time)) =
          pre ++ [prv, cur] ∧ ¬ can_continue prv cur) ∧
    (2 ≤ l.length →
      ((l.mergeSort by_cur_time).drop
        (get_prefix_end_exclusive_idx (l.mergeSort by_cur_time))).IsSuffix
        lo ∧
      (∀ x ∈ pl, x ∈ (l.mergeSort by_cur_time).take
        (get_prefix_end_exclusive_idx (l.mergeSort by_cur_time))) ∧
      (get_prefix_end_exclusive_idx (l.mergeSort by_cur_time) = 0 →
        pl = [] ∧ lo = l.mergeSort by_cur_time)) := by
  refine ⟨prefix_idx_chain _, fun h => prefix_idx_break _ h, fun h2 => ?_⟩
  have h1 : ¬ l.length ≤ 1 := by omega
  obtain ⟨ll, hloop, hlo⟩ := calculate_scrobbles_with_ok h1 hres
  obtain ⟨A, _, _⟩ := scrobble_loop_structure _ _ _ _ _ _ _ hloop (by simp)
  refine ⟨?_, ?_, ?_⟩
  · rw [hlo]
    exact List.suffix_append ll _
  · intro x hx
    obtain ⟨_, hm⟩ := A x hx
    rcases hm with hm | ⟨a, ha, _⟩
    · exact hm
    · cases ha
  · intro hk
    rw [hk] at hloop hlo
    rw [List.take_zero] at hloop
    rw [scrobble_loop_nil] at hloop
    simp only [Except.ok.injEq, Prod.mk.injEq] at hloop
    obtain ⟨hpl, hll⟩ := hloop
    subst hpl
    refine ⟨rfl, ?_⟩
    rw [hlo, ← hll]
    simp

/-- Witness for C3: the two-event input Playing(A), Paused(A) is entirely
undecidable, so the whole sequence is a suffix of the leftovers. -/
theorem calculate_scrobbles_trailing_suffix_witness :
    (([sPlay "A" 10 0, sPause "A" 10 4].mergeSort by_cur_time).drop
      (get_prefix_end_exclusive_idx
        ([sPlay "A" 10 0, sPause "A" 10 4].mergeSort
          by_cur_time))).IsSuffix [sPlay "A" 10 0, sPause "A" 10 4] :=
  ((calculate_scrobbles_trailing_suffix [sPlay "A" 10 0, sPause "A" 10 4]
      [] [sPlay "A" 10 0, sPause "A" 10 4]
      (by with_unfolding_all rfl)).2.2 (by simp)).1

lemma by_cur_time_trans : ∀ a b c : Status, by_cur_time a b = true →
    by_cur_time b c = true → by_cur_time a c = true := by
  intro a b c
  simp only [by_cur_time, decide_eq_true_eq]
  exact le_trans

lemma by_cur_time_total : ∀ a b : Status,
    (by_cur_time a b || by_cur_time b a) = true := by
  intro a b
  simp only [by_cur_time, Bool.or_eq_true, decide_eq_true_eq]
  exact le_total _ _

lemma pairwise_mergeSort_by_cur_time (l : List Status) :
    List.Pairwise (fun a b => by_cur_time a b = true)
      (l.mergeSort by_cur_time) :=
  List.sorted_mergeSort by_cur_time_trans by_cur_time_total l

/-- C7: the algorithm is deterministic, and re-running it on the leftovers
of a previous run yields no new plays and the same leftovers. -/
theorem calculate_scrobbles_idempotent (l pl lo : List Status)
    (hres : calculate_scrobbles l = .ok (pl, lo)) :
    calculate_scrobbles lo = .ok ([], lo) ∧
    (∀ r1 r2 : Except Unit (List Status × List Status),
      calculate_scrobbles l = r1 → calculate_scrobbles l = r2 → r1 = r2) := by
  refine ⟨?_, fun r1 r2 h1 h2 => h1 ▸ h2⟩
  by_cases h1 : l.length ≤ 1
  · rw [calculate_scrobbles_short l h1] at hres
    simp only [Except.ok.injEq, Prod.mk.injEq] at hres
    obtain ⟨_, h3⟩ := hres
    subst h3
    exact calculate_scrobbles_short l h1
  · obtain ⟨ll, hloop, hlo⟩ := calculate_scrobbles_with_ok h1 hres
    have hsorted := pairwise_mergeSort_by_cur_time l
    obtain ⟨_, _, C⟩ := scrobble_loop_structure _ _ _ _ _ _ _ hloop (by simp)
    have key : ∃ m, get_prefix_end_exclusive_idx (l.mergeSort by_cur_time) -
        1 ≤ m ∧ lo = (l.mergeSort by_cur_time).drop m := by
      obtain ⟨k, hk⟩ : ∃ k,
          get_prefix_end_exclusive_idx (l.mergeSort by_cur_time) = k :=
        ⟨_, rfl⟩
      have hkle := prefix_idx_le (l.mergeSort by_cur_time)
      have hbreak := fun h => prefix_idx_break (l.mergeSort by_cur_time) h
      rw [hk] at hlo hkle C hbreak
      rcases C with hC | ⟨pre, x, hls, hl, hx⟩ |
        ⟨pre, x, y, hls, hl, hx, hy, hf⟩
      · refine ⟨k, by omega, ?_⟩
        rw [hlo, hC]
        rfl
      · refine ⟨k - 1, by omega, ?_⟩
        have hklen : ((l.mergeSort by_cur_time).take k).length = k := by
          rw [List.length_take]
          omega
        have hpre : pre.length + 1 = k := by
          rw [← hklen, hls]
          simp
        have hsplit : l.mergeSort by_cur_time = pre ++ [x] ++
            (l.mergeSort by_cur_time).drop k := by
          conv_lhs => rw [← List.take_append_drop k
            (l.mergeSort by_cur_time)]
          rw [hls]
        rw [hlo, hl]
        conv_rhs => rw [hsplit]
        rw [List.append_assoc, show k - 1 = pre.length by omega,
          List.drop_left]
      · exfalso
        have hkne : k ≠ 0 := by
          intro h0
          rw [h0, List.take_zero] at hls
          exact absurd hls.symm (by simp)
        obtain ⟨_, pre', prv, cur, htake, hncc⟩ := hbreak hkne
        rw [hls] at htake
        obtain ⟨hpre, hxy⟩ := List.append_inj' htake (by simp)
        have hxprv : x = prv := by injection hxy
        have hycur : y = cur := by
          injection hxy with h3 h4
          injection h4
        subst hxprv
        subst hycur
        exact hncc ⟨by simp [hy], hf.symm, by simp [hx, hy], by simp [hx]⟩
    obtain ⟨m, hm, hlo2⟩ := key
    have hchain : List.Chain' can_continue lo := by
      rw [hlo2]
      have h2 := (prefix_idx_chain (l.mergeSort by_cur_time)).drop
        (m - (get_prefix_end_exclusive_idx (l.mergeSort by_cur_time) - 1))
      rw [List.drop_drop] at h2
      rwa [show get_prefix_end_exclusive_idx (l.mergeSort by_cur_time) - 1 +
        (m - (get_prefix_end_exclusive_idx (l.mergeSort by_cur_time) - 1)) =
        m by omega] at h2
    have hsorted_lo : List.Pairwise (fun a b => by_cur_time a b = true)
        lo := by
      rw [hlo2]
      exact List.Pairwise.sublist (List.drop_sublist _ _) hsorted
    by_cases h2 : lo.length ≤ 1
    · exact calculate_scrobbles_short lo h2
    · unfold calculate_scrobbles calculate_scrobbles_with
      rw [if_neg h2, List.mergeSort_of_sorted hsorted_lo]
      have hk0 : get_prefix_end_exclusive_idx lo = 0 :=
        (prefix_idx_zero_iff lo).mpr hchain
      rw [hk0, List.take_zero, scrobble_loop_nil]
      simp

/-- Witness for C7: a Playing/Playing same-file input leaves the second
event as leftover; re-running on that leftover returns it unchanged with no
plays, and the run is deterministic. -/
theorem calculate_scrobbles_idempotent_witness :
    calculate_scrobbles [sPlay "A" 10 10] = .ok ([], [sPlay "A" 10 10]) :=
  (calculate_scrobbles_idempotent [sPlay "A" 10 0, sPlay "A" 10 10]
    [sPlay "A" 10 0] [sPlay "A" 10 10] (by with_unfolding_all rfl)).1

/-- A pause/resume run: Playing then Paused snapshots of the same file, one
pair per entry of ts (timestamps: start of play window, pause). -/
def pause_run (f : String) (d : Option Int) : List (ℚ × ℚ) → List Status
  | [] => []
  | (a, b) :: rest =>
    mkStatus .playing f d a :: mkStatus .paused f d b :: pause_run f d rest

/-- The total played seconds accumulated over the Playing-to-Paused windows
of a pause/resume run. -/
def carry_sum : List (ℚ × ℚ) → ℚ
  | [] => 0
  | (a, b) :: rest => (b - a) + carry_sum rest

lemma pause_run_length (f : String) (d : Option Int) :
    ∀ ts : List (ℚ × ℚ), (pause_run f d ts).length = 2 * ts.length := by
  intro ts
  induction ts with
  | nil => rfl
  | cons ab rest ih =>
    obtain ⟨a, b⟩ := ab
    simp only [pause_run, List.length_cons, ih]
    ring

lemma pause_run_head (f : String) (d : Option Int) (ts : List (ℚ × ℚ))
    (t : ℚ) (tail : List Status) :
    ∃ t2 tail2, pause_run f d ts ++ mkStatus .playing f d t :: tail =
      mkStatus .playing f d t2 :: tail2 := by
  cases ts with
  | nil => exact ⟨t, tail, rfl⟩
  | cons ab rest =>
    obtain ⟨a, b⟩ := ab
    exact ⟨a, _, rfl⟩

lemma scrobble_loop_pause_run_fold (p s : ℚ) (f : String) (d : Option Int)
    (hd : d ≠ some 0) :
    ∀ (ts : List (ℚ × ℚ)) (t : ℚ) (tail : List Status) (pbp : ℚ)
      (pbps : Option Status),
      scrobble_loop p s
          (pause_run f d ts ++ mkStatus .playing f d t :: tail) pbp pbps =
        scrobble_loop p s (mkStatus .playing f d t :: tail)
          (pbp + carry_sum ts)
          (match ts with
           | [] => pbps
           | (a, _) :: _ => some (pbps.getD (mkStatus .playing f d a))) := by
  intro ts
  induction ts with
  | nil =>
    intro t tail pbp pbps
    simp [pause_run, carry_sum]
  | cons ab rest ih =>
    obtain ⟨a, b⟩ := ab
    intro t tail pbp pbps
    obtain ⟨t2, tail2, hsplit⟩ := pause_run_head f d rest t tail
    simp only [pause_run, List.cons_append]
    rw [hsplit, scrobble_loop_three, if_neg (by simp)]
    generalize hcg : (match pbps with
      | some x => if equal_tracks x (mkStatus .playing f d a) then pbp else 0
      | none => (0 : ℚ)) = carg
    obtain ⟨pe, hpe⟩ := has_played_enough_ok p s
      (mkStatus .playing f d a).cur_time
      (mkStatus .paused f d b).cur_time carg
      (by simpa using hd)
    simp only [mkStatus_duration]
    rw [hpe]
    simp only []
    rw [if_neg (by simp [equal_tracks]), if_pos (by simp [equal_tracks])]
    rw [scrobble_loop_skip _ _ _ _ _ _ (Or.inr (by simp))]
    rw [← hsplit, ih]
    congr 1
    · simp only [mkStatus_cur_time, carry_sum]
      ring
    · cases rest with
      | nil => rfl
      | cons ab2 r2 =>
        obtain ⟨a2, b2⟩ := ab2
        simp

lemma scrobble_loop_end_pause_stop (p s : ℚ) (f : String) (d : Option Int)
    (u v w pbp : ℚ) (a0 : Status) (ha0 : a0.file = f) (pe : Bool)
    (hpe : has_played_enough p s u v d pbp = .ok pe) :
    scrobble_loop p s [mkStatus .playing f d u, mkStatus .paused f d v,
        mkStatus .stopped f d w] pbp (some a0) =
      .ok (if pe then [a0] else [], []) := by
  rw [scrobble_loop_three, if_neg (by simp)]
  have hcg : (match some a0 with
      | some x => if equal_tracks x (mkStatus .playing f d u) then pbp else 0
      | none => (0 : ℚ)) = pbp := by
    simp only []
    rw [if_pos (by simpa [equal_tracks] using ha0)]
  rw [hcg]
  simp only [mkStatus_cur_time, mkStatus_duration]
  rw [hpe]
  simp only []
  rw [if_neg (by simp [equal_tracks]), if_neg (by simp)]
  have hskip2 : scrobble_loop p s [mkStatus .paused f d v,
      mkStatus .stopped f d w] pbp (some a0) = .ok ([], []) := by
    rw [scrobble_loop_skip _ _ _ _ _ _ (Or.inr (by simp)),
      scrobble_loop_skip _ _ _ _ _ _ (Or.inl (by simp))]
    rfl
  rw [hskip2]
  simp

lemma scrobble_loop_end_stop (p s : ℚ) (f : String) (d : Option Int)
    (u w pbp : ℚ) (a0 : Status) (pe : Bool)
    (hpe : has_played_enough p s u w d pbp = .ok pe)
    (ha0 : a0.file = f) :
    scrobble_loop p s [mkStatus .playing f d u, mkStatus .stopped f d w]
        pbp (some a0) =
      .ok (if pe then [mkStatus .playing f d u] else [], []) := by
  rw [scrobble_loop_two, if_neg (by simp)]
  have hcg : (match some a0 with
      | some x => if equal_tracks x (mkStatus .playing f d u) then pbp else 0
      | none => (0 : ℚ)) = pbp := by
    simp only []
    rw [if_pos (by simpa [equal_tracks] using ha0)]
  rw [hcg]
  simp only [mkStatus_cur_time, mkStatus_duration]
  rw [hpe]
  simp only []
  rw [if_pos (by simp)]
  have hskip2 : scrobble_loop p s [mkStatus .stopped f d w] 0 none =
      .ok ([], []) := by
    rw [scrobble_loop_skip _ _ _ _ _ _ (Or.inl (by simp))]
    rfl
  rw [hskip2]
  simp

lemma get_prefix_end_of_stopped_last (zs : List Status) (x e : Status)
    (he : e.status = .stopped) :
    get_prefix_end_exclusive_idx (zs ++ [x, e]) = (zs ++ [x, e]).length := by
  unfold get_prefix_end_exclusive_idx
  rw [show (zs ++ [x, e]).reverse = e :: x :: zs.reverse by simp]
  rw [get_prefix_end_go_cons, if_pos (Or.inl he)]
  simp

/-- Counterexample to C2 as stated: in the run Playing(A,0), Paused(A,1),
Playing(A,100), Stopped(A,101) with duration 4, the carry makes
played_enough hold, the run ends with next being Stopped on the same file,
and the emitted play is the resumed Playing event at t=100 — not the
carry-anchor Playing event at t=0. -/
theorem calculate_scrobbles_carry_anchor_cex :
    calculate_scrobbles [sPlay "A" 4 0, sPause "A" 4 1, sPlay "A" 4 100,
        sStop "A" 4 101] =
      .ok ([sPlay "A" 4 100], []) ∧
    sPlay "A" 4 100 ≠ sPlay "A" 4 0 := by
  constructor
  · with_unfolding_all rfl
  · intro h
    have := congrArg Status.cur_time h
    simp [sPlay, mkStatus] at this

/-- C2 corrected: in a pause/resume run the played windows are folded into
the carry and the first event of the run is kept as the anchor without
being overwritten, and nothing is emitted while the run continues; when the
run ends through a Paused event whose successor ends it (e.g. Stopped),
the emitted play is the carry-anchor — the first Playing event of the run;
but when the run ends with next being Stopped directly after a resumed
Playing event, the code emits that resumed Playing event (cur), not the
anchor, with the carry still counted in played_enough. -/
theorem calculate_scrobbles_carry_anchor_amended :
    (∀ (f : String) (d : Option Int) (a b u v w : ℚ) (ts : List (ℚ × ℚ))
      (pe : Bool),
      d ≠ some 0 →
      (pause_run f d ((a, b) :: ts) ++ [mkStatus .playing f d u,
        mkStatus .paused f d v, mkStatus .stopped f d w]).Pairwise
        (fun x y => by_cur_time x y = true) →
      has_played_enough (1/2) (4*60) u v d (carry_sum ((a, b) :: ts)) =
        .ok pe →
      calculate_scrobbles (pause_run f d ((a, b) :: ts) ++
        [mkStatus .playing f d u, mkStatus .paused f d v,
          mkStatus .stopped f d w]) =
        .ok (if pe then [mkStatus .playing f d a] else [], [])) ∧
    (∀ (f : String) (d : Option Int) (a b u w : ℚ) (ts : List (ℚ × ℚ))
      (pe : Bool),
      d ≠ some 0 →
      (pause_run f d ((a, b) :: ts) ++ [mkStatus .playing f d u,
        mkStatus .stopped f d w]).Pairwise
        (fun x y => by_cur_time x y = true) →
      has_played_enough (1/2) (4*60) u w d (carry_sum ((a, b) :: ts)) =
        .ok pe →
      calculate_scrobbles (pause_run f d ((a, b) :: ts) ++
        [mkStatus .playing f d u, mkStatus .stopped f d w]) =
        .ok (if pe then [mkStatus .playing f d u] else [], [])) := by
  constructor
  · intro f d a b u v w ts pe hd hsorted hpe
    have hlen : ¬ (pause_run f d ((a, b) :: ts) ++ [mkStatus .playing f d u,
        mkStatus .paused f d v, mkStatus .stopped f d w]).length ≤ 1 := by
      simp [pause_run_length]
    unfold calculate_scrobbles calculate_scrobbles_with
    rw [if_neg hlen, List.mergeSort_of_sorted hsorted]
    have hidx : get_prefix_end_exclusive_idx
        (pause_run f d ((a, b) :: ts) ++ [mkStatus .playing f d u,
          mkStatus .paused f d v, mkStatus .stopped f d w]) =
        (pause_run f d ((a, b) :: ts) ++ [mkStatus .playing f d u,
          mkStatus .paused f d v, mkStatus .stopped f d w]).length := by
      rw [show pause_run f d ((a, b) :: ts) ++ [mkStatus .playing f d u,
          mkStatus .paused f d v, mkStatus .stopped f d w] =
          (pause_run f d ((a, b) :: ts) ++ [mkStatus .playing f d u]) ++
            [mkStatus .paused f d v, mkStatus .stopped f d w] by simp]
      rw [get_prefix_end_of_stopped_last _ _ _ (by simp)]
    rw [hidx, List.take_length, List.drop_length]
    rw [scrobble_loop_pause_run_fold (1/2) (4*60) f d hd ((a, b) :: ts) u
      [mkStatus .paused f d v, mkStatus .stopped f d w] 0 none]
    simp only [Option.getD_none, zero_add]
    rw [scrobble_loop_end_pause_stop (1/2) (4*60) f d u v w
      (carry_sum ((a, b) :: ts)) (mkStatus .playing f d a) (by simp) pe hpe]
    simp
  · intro f d a b u w ts pe hd hsorted hpe
    have hlen : ¬ (pause_run f d ((a, b) :: ts) ++ [mkStatus .playing f d u,
        mkStatus .stopped f d w]).length ≤ 1 := by
      simp [pause_run_length]
    unfold calculate_scrobbles calculate_scrobbles_with
    rw [if_neg hlen, List.mergeSort_of_sorted hsorted]
    have hidx : get_prefix_end_exclusive_idx
        (pause_run f d ((a, b) :: ts) ++ [mkStatus .playing f d u,
          mkStatus .stopped f d w]) =
        (pause_run f d ((a, b) :: ts) ++ [mkStatus .playing f d u,
          mkStatus .stopped f d w]).length := by
      rw [get_prefix_end_of_stopped_last (pause_run f d ((a, b) :: ts))
        (mkStatus .playing f d u) (mkStatus .stopped f d w) (by simp)]
    rw [hidx, List.take_length, List.drop_length]
    rw [scrobble_loop_pause_run_fold (1/2) (4*60) f d hd ((a, b) :: ts) u
      [mkStatus .stopped f d w] 0 none]
    simp only [Option.getD_none, zero_add]
    rw [scrobble_loop_end_stop (1/2) (4*60) f d u w
      (carry_sum ((a, b) :: ts)) (mkStatus .playing f d a) pe hpe (by simp)]
    simp

/-- Witness for C2: the five-cycle pause/resume scenario on file A with
duration 10 accumulates 1-second windows; with the carry the final window
crosses the 50 percent threshold and the first event of the run (t=0) is
the single reported play. -/
theorem calculate_scrobbles_carry_anchor_amended_witness :
    calculate_scrobbles (pause_run "A" (some 10)
        [(0, 1), (100, 101), (200, 201), (300, 301)] ++
      [mkStatus .playing "A" (some 10) 400,
        mkStatus .paused "A" (some 10) 401,
        mkStatus .stopped "A" (some 10) 402]) =
      .ok ([mkStatus .playing "A" (some 10) 0], []) := by
  have h := calculate_scrobbles_carry_anchor_amended.1 "A" (some 10) 0 1
    400 401 402 [(100, 101), (200, 201), (300, 301)] true (by decide)
    (by decide) (by with_unfolding_all rfl)
  simpa using h
